import Mathlib

/-!
Shallow embedding of `main.go` of the simple-http-server repository, together
with theorems checking the specification's claims against it.

Paths and other byte strings from the Go code are modelled as `List Char`
(Go compares strings bytewise; UTF-8 bytewise order coincides with
codepoint order, so `List Char` comparisons are faithful).  Standard-library
functions used by `main.go` (`strings.TrimPrefix`, `strings.Contains`,
`strings.HasPrefix`, `path/filepath.Clean`, `Join`, `Abs`, `Base`, `Ext`,
`strings.ToLower`, `strings.Split`, `strings.Join`, `sort.Slice`,
`fmt.Sprintf` on the formats used) are modelled by Lean functions following
their documented behaviour; each model carries a doc comment naming the Go
function it stands for.
-/

namespace SimpleHttpServer

/-- Byte strings of the Go program, as lists of characters. -/
abbrev Str := List Char

/-- Models `strings.TrimPrefix(s, "/")`: drop one leading separator if present
(`main.go` line 77). -/
def trimPrefixSlash (s : Str) : Str :=
  match s with
  | [] => []
  | c :: rest => if c = '/' then rest else c :: rest

/-- Models `strings.Split(s, "/")` (used by the template helpers and, on the
segment level, by `filepath.Clean`): split at every separator, keeping empty
pieces.  The result is always non-empty. -/
def splitSlash : Str → List Str
  | [] => [[]]
  | c :: rest =>
    match splitSlash rest with
    | [] => [[c]]
    | s :: ss => if c = '/' then [] :: s :: ss else (c :: s) :: ss

/-- Models `strings.Join(parts, "/")`: interleave the pieces with single
separators. -/
def joinSegs : List Str → Str
  | [] => []
  | [s] => s
  | s :: rest => s ++ '/' :: joinSegs rest

/-- The element loop of `path/filepath.Clean` on a rooted path: empty and `.`
elements are dropped, a `..` element removes the previously kept element
(or is dropped at the root), and every other element is kept.  `acc` holds
the kept elements in reverse. -/
def cleanSegs (acc : List Str) : List Str → List Str
  | [] => acc.reverse
  | s :: rest =>
    if s = [] then cleanSegs acc rest
    else if s = ['.'] then cleanSegs acc rest
    else if s = ['.', '.'] then cleanSegs acc.tail rest
    else cleanSegs (s :: acc) rest

/-- Models `path/filepath.Clean` on a rooted (absolute) path: split into
elements, process them, and reassemble under the leading separator.  Every
path cleaned by the server is absolute (the serve root comes from
`filepath.Abs`), so only the rooted case is needed. -/
def goCleanAbs (p : Str) : Str :=
  '/' :: joinSegs (cleanSegs [] (splitSlash p))

/-- Models `filepath.Join(a, b)` for absolute `a` (`main.go` line 86):
concatenate with a separator and clean.  (For `b = ""` Go joins just `a` and
cleans it; cleaning `a ++ "/"` gives the same result.) -/
def goJoin (a b : Str) : Str := goCleanAbs (a ++ '/' :: b)

/-- Models `filepath.Abs` on the absolute paths it is applied to in
`main.go` (lines 89 and 96): for an already-absolute path `Abs` is `Clean`
and never returns an error, so the error branch at line 90 (returning 404)
is unreachable and not modelled. -/
def goAbs (p : Str) : Str := goCleanAbs p

/-- Models `filepath.Ext` (`main.go` line 293): the suffix of the path
starting at the last dot that is not followed by a separator; empty if there
is no such dot. -/
def goExt : Str → Str
  | [] => []
  | c :: rest =>
    let e := goExt rest
    if e ≠ [] then e
    else if c = '.' ∧ '/' ∉ rest then c :: rest
    else []

/-- Models Go's `unicode.ToLower` (the per-character folding of
`strings.ToLower`, `main.go` line 293) on every codepoint whose Unicode
simple lowercase mapping is ASCII: the ASCII letters `A`-`Z` (folded by
`Char.toLower`) and the only two non-ASCII such codepoints, `İ` (U+0130,
which lowers to `i`) and the Kelvin sign `K` (U+212A, which lowers to `k`).
Every remaining codepoint either is its own lowercase or lowers to another
non-ASCII codepoint and is left unchanged here; since `getMimeType` only
compares the folded extension against all-ASCII table keys, no such
character can change any comparison, so `getMimeType` agrees with the
program on every input. -/
def goToLowerChar (c : Char) : Char :=
  if c = 'İ' then 'i'
  else if c = 'K' then 'k'
  else c.toLower

/-- Models `strings.ToLower` (`main.go` line 293): the folding applied to
every character. -/
def lowerStr (s : Str) : Str := s.map goToLowerChar

/-- Models `getMimeType` (`main.go` lines 292-320). -/
def getMimeType (filename : Str) : String :=
  let ext := lowerStr (goExt filename)
  if ext = ".html".data ∨ ext = ".htm".data then "text/html"
  else if ext = ".css".data then "text/css"
  else if ext = ".js".data then "application/javascript"
  else if ext = ".json".data then "application/json"
  else if ext = ".png".data then "image/png"
  else if ext = ".jpg".data ∨ ext = ".jpeg".data then "image/jpeg"
  else if ext = ".gif".data then "image/gif"
  else if ext = ".svg".data then "image/svg+xml"
  else if ext = ".pdf".data then "application/pdf"
  else if ext = ".txt".data then "text/plain"
  else if ext = ".md".data then "text/markdown"
  else "application/octet-stream"

/-- Models `filepath.Base` (`main.go` line 133): strip trailing separators,
then keep everything after the last remaining separator. -/
def goBase (p : Str) : Str :=
  if p = [] then ['.']
  else
    let q := (p.reverse.dropWhile (fun c => c == '/')).reverse
    if q = [] then ['/']
    else (q.reverse.takeWhile (fun c => c != '/')).reverse

/-- One child of a listed directory (`FileInfo` in `main.go` lines 17-23).
`ModTime` holds the already-formatted modification timestamp (the template
renders it with a fixed layout; its value is opaque to every claim). -/
structure FileInfo where
  Name : Str
  IsDir : Bool
  Size : Nat
  ModTime : Str
  URL : Str
deriving DecidableEq

/-- `DirectoryListing` in `main.go` lines 25-28. -/
structure DirectoryListing where
  Path : Str
  Files : List FileInfo
deriving DecidableEq

/-- One result of `os.ReadDir`: the entry's name and classification, the
data its `Info()` call would return, and whether that call fails (in which
case `main.go` line 158 skips the entry). -/
structure DirEnt where
  name : Str
  isDir : Bool
  size : Nat
  modTime : Str
  infoErr : Bool
deriving DecidableEq

/-- Result of `os.Stat` as `main.go` consumes it: success with the entry's
classification, an error for which `os.IsNotExist` holds, or any other
error (permission failure, I/O error, ...). -/
inductive StatResult where
  | ok (isDir : Bool)
  | errNotExist
  | errOther
deriving DecidableEq

/-- Contents of an opened file as `serveFile` consumes them: whether
`file.Stat()` succeeds, the size it reports, and the bytes streamed by
`io.Copy`. -/
structure FileData where
  statOk : Bool
  size : Nat
  bytes : List Nat
deriving DecidableEq

/-- The filesystem state a request runs against: the three operations the
handler performs, as pure functions.  `none` models the error return of
`os.ReadDir` / `os.Open`. -/
structure Fs where
  stat : Str → StatResult
  readDir : Str → Option (List DirEnt)
  openFile : Str → Option FileData

/-- The response the handler hands to the transport layer: status plus the
headers and body bytes the code sets.  `panicked` marks the run in which the
handler dereferences a nil `os.FileInfo` (see `ServeHTTPcore`); no response
is produced there. -/
inductive Response where
  | forbidden (msg : String)
  | notFound
  | internalError
  | fileOk (contentType : String) (contentLength : Nat) (dispositionName : Str) (body : List Nat)
  | dirOk (html : Str)
  | panicked
deriving DecidableEq

def forbiddenTraversalMsg : String := "Forbidden: Directory traversal not allowed"

def forbiddenOutsideMsg : String := "Forbidden: Path outside serve directory"

/-- Decimal digits of a natural number, as characters. -/
def natToStr (n : Nat) : Str := (Nat.repr n).data

/-- Round `num / den` to the nearest integer, ties to even: the rounding
IEEE-754 applies at each binary operation and the rounding `strconv`
applies when `fmt` formats a float with fixed decimal precision. -/
def roundHalfEven (num den : Nat) : Nat :=
  let q := num / den
  let r := num % den
  if 2 * r < den then q
  else if den < 2 * r then q + 1
  else if q % 2 = 0 then q else q + 1

/-- Number of binary digits of `n`, by fuel (64 suffices for every `int64`
value the program can hold). -/
def bitLenAux : Nat → Nat → Nat
  | 0, _ => 0
  | fuel + 1, n => if n = 0 then 0 else bitLenAux fuel (n / 2) + 1

/-- Number of binary digits of an `int64`-ranged natural. -/
def bitLen (n : Nat) : Nat := bitLenAux 64 n

/-- Models the Go conversion `float64(bytes)` for a non-negative `int64`:
values below 2^53 are exact; larger values are rounded to 53 significant
bits, ties to even. -/
def toFloat64 (n : Nat) : Nat :=
  if n < 2 ^ 53 then n
  else
    let e := bitLen n - 53
    roundHalfEven n (2 ^ e) * 2 ^ e

/-- Models `fmt.Sprintf("%.1f", float64(num)/float64(den))` for the
divisors `formatBytes` uses (powers of two): the operand is first rounded
to float64 precision, the division by a power of two is then exact, and the
decimal formatting rounds the exact value of that float to one decimal,
ties to even. -/
def fixed1 (num den : Nat) : Str :=
  let t := roundHalfEven (toFloat64 num * 10) den
  natToStr (t / 10) ++ '.' :: natToStr (t % 10)

/-- One decimal of the exact quotient `num / den`, ties to even — the
one-decimal count as the C7 claim states it, with no float64 detour. -/
def fixed1Exact (num den : Nat) : Str :=
  let t := roundHalfEven (num * 10) den
  natToStr (t / 10) ++ '.' :: natToStr (t % 10)

/-- Models the template helper `formatBytes` (`main.go` lines 261-269).
Sizes are `int64` in Go; regular files have non-negative sizes, modelled as
`Nat`. -/
def goFormatBytes (bytes : Nat) : Str :=
  if bytes < 1024 then natToStr bytes ++ (" B").data
  else if bytes < 1024 * 1024 then fixed1 bytes 1024 ++ (" KB").data
  else fixed1 bytes (1024 * 1024) ++ (" MB").data

/-- Models the template helper `dirname` (`main.go` lines 271-277). -/
def goDirname (path : Str) : Str :=
  let parts := splitSlash path
  if parts.length ≤ 1 then []
  else joinSegs (parts.take (parts.length - 1))

/-- The `href` of the parent-directory row (`main.go` line 240): `/` when
the listed path has a single element, otherwise `dirname` of the path
followed by a separator. -/
def parentHref (path : Str) : Str :=
  if (splitSlash path).length = 1 then ['/']
  else goDirname path ++ ['/']

/-- The URL built for a child entry (`main.go` lines 168-178). -/
def buildURL (urlPath name : Str) (isDir : Bool) : Str :=
  (if urlPath ≠ [] then '/' :: (urlPath ++ '/' :: name) else '/' :: name)
    ++ (if isDir then ['/'] else [])

/-- The comparison passed to `sort.Slice` (`main.go` lines 184-189), on
names: Go's `<` on strings, i.e. lexicographic byte order. -/
def strLt : Str → Str → Bool
  | [], [] => false
  | [], _ :: _ => true
  | _ :: _, [] => false
  | a :: as, b :: bs =>
    if a.toNat < b.toNat then true
    else if b.toNat < a.toNat then false
    else strLt as bs

/-- The `less` function passed to `sort.Slice` (`main.go` lines 184-189). -/
def goLess (a b : FileInfo) : Bool :=
  if a.IsDir ≠ b.IsDir then a.IsDir else strLt a.Name b.Name

/-- Insert into a list sorted by `goLess`. -/
def insertFile (a : FileInfo) : List FileInfo → List FileInfo
  | [] => [a]
  | b :: l => if goLess b a then b :: insertFile a l else a :: b :: l

/-- Models the `sort.Slice` call of `main.go` line 184: a permutation of the
input sorted by `goLess` (insertion sort as the concrete deterministic
model; `sort.Slice` promises exactly a sorted permutation). -/
def sortFiles : List FileInfo → List FileInfo
  | [] => []
  | a :: l => insertFile a (sortFiles l)

/-- Folder icon text as it appears (mojibake and all) in the `main.go`
template. -/
def dirIcon : Str := ("üìÅ").data

/-- File icon text as it appears in the `main.go` template. -/
def fileIcon : Str := ("üìÑ").data

/-- Literal template text from `<!DOCTYPE html>` up to the first `.Path`
interpolation (`main.go` lines 210-213). -/
def htmlChunkA : Str :=
  ("<!DOCTYPE html>\n<html>\n<head>\n    <title>Directory listing for ").data

/-- Literal template text between the two `.Path` interpolations
(`main.go` lines 213-227): the style block and the opening of the body. -/
def htmlChunkB : Str :=
  ("</title>\n    <style>\n        body \x7b font-family: Arial, sans-serif; margin: 20px; \x7d\n        h1 \x7b color: #333; \x7d\n        table \x7b border-collapse: collapse; width: 100%; \x7d\n        th, td \x7b border: 1px solid #ddd; padding: 8px; text-align: left; \x7d\n        th \x7b background-color: #f2f2f2; \x7d\n        a \x7b text-decoration: none; color: #0066cc; \x7d\n        a:hover \x7b text-decoration: underline; \x7d\n        .file-icon \x7b color: #666; \x7d\n        .dir-icon \x7b color: #ff6600; \x7d\n    </style>\n</head>\n<body>\n    <h1>Directory listing for ").data

/-- Literal template text from after the heading up to the position of the
`if .Path` action (`main.go` lines 227-238). -/
def htmlChunkC : Str :=
  ("</h1>\n    <table>\n        <thead>\n            <tr>\n                <th>Name</th>\n                <th>Type</th>\n                <th>Size</th>\n                <th>Modified</th>\n            </tr>\n        </thead>\n        <tbody>\n            ").data

/-- Everything `generateDirectoryHTML` emits before the parent-directory
row: the document head and heading (both showing the listed path) and the
table header. -/
def htmlHeader (path : Str) : Str :=
  htmlChunkA ++ path ++ htmlChunkB ++ path ++ htmlChunkC

/-- The parent-directory row (`main.go` lines 238-245), i.e. the body of the
template's `if .Path` block, with the `href` computed by `parentHref`. -/
def parentRowHTML (path : Str) : Str :=
  ("\n            <tr>\n                <td><a href=\"").data
    ++ parentHref path
    ++ ("\">").data ++ dirIcon ++ (" ..</a></td>\n                <td><span class=\"dir-icon\">").data
    ++ dirIcon
    ++ ("</span> Directory</td>\n                <td>-</td>\n                <td>-</td>\n            </tr>\n            ").data

/-- The size cell of an entry row (`main.go` line 250): a placeholder for
directories, the formatted size for files. -/
def sizeCell (f : FileInfo) : Str :=
  if f.IsDir then ("-").data else goFormatBytes f.Size

/-- One entry row of the listing table (`main.go` lines 246-253), i.e. the
body of the template's `range .Files` block. -/
def entryRowHTML (f : FileInfo) : Str :=
  ("\n            <tr>\n                <td><a href=\"").data
    ++ f.URL
    ++ ("\">").data ++ (if f.IsDir then dirIcon else fileIcon) ++ (" ").data ++ f.Name
    ++ ("</a></td>\n                <td>").data
    ++ (if f.IsDir then ("Directory").data else ("File").data)
    ++ ("</td>\n                <td>").data
    ++ sizeCell f
    ++ ("</td>\n                <td>").data
    ++ f.ModTime
    ++ ("</td>\n            </tr>\n            ").data

/-- Literal template text between the end of the `if .Path` block and the
`range .Files` action. -/
def htmlBetween : Str := ("\n            ").data

/-- Literal template text after the `range .Files` block (`main.go` lines
254-257). -/
def htmlFooter : Str := ("\n        </tbody>\n    </table>\n</body>\n</html>").data

/-- All entry rows in order. -/
def entriesHTML (files : List FileInfo) : Str := (files.map entryRowHTML).flatten

/-- Models `generateDirectoryHTML` (`main.go` lines 209-290): the fixed
template rendered against the listing.  `html/template`'s contextual
escaping is the identity on every character the claims involve and is not
modelled. -/
def generateDirectoryHTML (l : DirectoryListing) : Str :=
  htmlHeader l.Path
    ++ (if l.Path ≠ [] then parentRowHTML l.Path else [])
    ++ htmlBetween
    ++ entriesHTML l.Files
    ++ htmlFooter

/-- The `FileInfo` built for one readable child (`main.go` lines 161-178). -/
def mkFileInfo (urlPath : Str) (e : DirEnt) : FileInfo :=
  { Name := e.name, IsDir := e.isDir, Size := e.size, ModTime := e.modTime,
    URL := buildURL urlPath e.name e.isDir }

/-- The loop of `main.go` lines 154-181: children whose `Info()` call fails
are silently skipped, the rest become `FileInfo` values. -/
def dirEntsToFiles (urlPath : Str) (entries : List DirEnt) : List FileInfo :=
  entries.filterMap (fun e => if e.infoErr then none else some (mkFileInfo urlPath e))

/-- Models `serveDirectory` (`main.go` lines 145-207).  The template is
fixed and parses, so the `Parse`/`Execute` error branches (both 500) are
unreachable and not modelled. -/
def serveDirectory (dirPath urlPath : Str) (fsys : Fs) : Response :=
  match fsys.readDir dirPath with
  | none => .internalError
  | some entries =>
    let files := sortFiles (dirEntsToFiles urlPath entries)
    .dirOk (generateDirectoryHTML { Path := urlPath, Files := files })

/-- Models `serveFile` (`main.go` lines 116-143). -/
def serveFile (filePath : Str) (fsys : Fs) : Response :=
  match fsys.openFile filePath with
  | none => .internalError
  | some f =>
    if f.statOk = false then .internalError
    else
      .fileOk (getMimeType (goBase filePath)) f.size (goBase filePath) f.bytes

/-- Models `ServeHTTP` (`main.go` lines 75-114) as a function of the serve
root, the request's URL path and the filesystem state.  When `os.Stat`
fails with an error other than non-existence, `info` is nil and line 109
(`info.IsDir()`) dereferences a nil interface: that run is `panicked`. -/
def ServeHTTPcore (servePath urlPath : Str) (fsys : Fs) : Response :=
  let path := trimPrefixSlash urlPath
  if ['.', '.'] <:+: path ∨ ['/'] <+: path then
    .forbidden forbiddenTraversalMsg
  else
    let fullPath := goJoin servePath path
    let absPath := goAbs fullPath
    let serveAbsPath := goAbs servePath
    if ¬ serveAbsPath <+: absPath then
      .forbidden forbiddenOutsideMsg
    else
      match fsys.stat absPath with
      | .errNotExist => .notFound
      | .errOther => .panicked
      | .ok isDir =>
        if isDir then serveDirectory absPath path fsys
        else serveFile absPath fsys

/-- An incoming request as the handler sees it; `ServeHTTP` reads only
`URL.Path`. -/
structure Request where
  method : String
  urlPath : Str
  headers : List (String × String)

/-- The `FileServer` receiver (`main.go` lines 71-73): its only field. -/
structure FileServer where
  servePath : Str
deriving DecidableEq

/-- The `ServeHTTP` method with its receiver threaded through: the method
body never assigns to the receiver or to any global, so the state after the
call is the state before it. -/
def ServeHTTPrun (srv : FileServer) (r : Request) (fsys : Fs) : Response × FileServer :=
  (ServeHTTPcore srv.servePath r.urlPath fsys, srv)

/-- A filesystem with nothing in it, for concrete witnesses. -/
def fsEmpty : Fs :=
  { stat := fun _ => .errNotExist, readDir := fun _ => none, openFile := fun _ => none }

/-! ### Structure of `splitSlash` -/

theorem splitSlash_ne_nil (p : Str) : splitSlash p ≠ [] := by
  cases p with
  | nil => simp [splitSlash]
  | cons c rest =>
    simp only [splitSlash]
    cases h : splitSlash rest with
    | nil => simp
    | cons s ss =>
      by_cases hc : c = '/' <;> simp [hc]

theorem splitSlash_append (a b : Str) :
    splitSlash (a ++ '/' :: b) = splitSlash a ++ splitSlash b := by
  induction a with
  | nil =>
    cases h : splitSlash b with
    | nil => exact absurd h (splitSlash_ne_nil b)
    | cons s ss => simp [splitSlash, h]
  | cons c a ih =>
    cases h : splitSlash a with
    | nil => exact absurd h (splitSlash_ne_nil a)
    | cons s ss =>
      simp only [List.cons_append, splitSlash, List.append_eq]
      rw [ih, h, List.cons_append]
      by_cases hc : c = '/' <;> simp [hc]

theorem mem_splitSlash_no_slash (p : Str) : ∀ s ∈ splitSlash p, '/' ∉ s := by
  induction p with
  | nil => intro s hs; simp [splitSlash] at hs; simp [hs]
  | cons c rest ih =>
    intro s hs
    cases h : splitSlash rest with
    | nil => exact absurd h (splitSlash_ne_nil rest)
    | cons t ts =>
      simp only [splitSlash, h] at hs
      by_cases hc : c = '/'
      · simp [hc] at hs
        rcases hs with h1 | h1 | h1
        · simp [h1]
        · exact h1 ▸ ih t (by simp [h])
        · exact ih s (by simp [h, h1])
      · simp [hc] at hs
        rcases hs with h1 | h1
        · subst h1
          intro hmem
          rcases List.mem_cons.mp hmem with h2 | h2
          · exact hc h2.symm
          · exact ih t (by simp [h]) h2
        · exact ih s (by simp [h, h1])

theorem splitSlash_head_pref (p : Str) :
    ∀ s ss, splitSlash p = s :: ss → s <+: p := by
  induction p with
  | nil => intro s ss h; simp [splitSlash] at h; simp [h.1]
  | cons c rest ih =>
    intro s ss h
    cases hr : splitSlash rest with
    | nil => exact absurd hr (splitSlash_ne_nil rest)
    | cons t ts =>
      simp only [splitSlash, hr] at h
      by_cases hc : c = '/'
      · rw [if_pos hc] at h
        injection h with h1 h2
        subst h1
        exact List.nil_prefix
      · rw [if_neg hc] at h
        injection h with h1 h2
        subst h1
        rcases ih t ts hr with ⟨u, hu⟩
        exact ⟨u, by simp [← hu]⟩

theorem mem_splitSlash_infixOf (p : Str) : ∀ s ∈ splitSlash p, s <:+: p := by
  induction p with
  | nil => intro s hs; simp [splitSlash] at hs; simp [hs]
  | cons c rest ih =>
    intro s hs
    cases h : splitSlash rest with
    | nil => exact absurd h (splitSlash_ne_nil rest)
    | cons t ts =>
      simp only [splitSlash, h] at hs
      by_cases hc : c = '/'
      · simp [hc] at hs
        rcases hs with h1 | h1 | h1
        · simp [h1]
        · exact List.infix_cons (h1 ▸ ih t (by simp [h]))
        · exact List.infix_cons (ih s (by simp [h, h1]))
      · simp [hc] at hs
        rcases hs with h1 | h1
        · subst h1
          rcases splitSlash_head_pref rest t ts h with ⟨u, hu⟩
          exact ⟨[], u, by simp [← hu]⟩
        · exact List.infix_cons (ih s (by simp [h, h1]))

theorem splitSlash_no_slash (s : Str) (h : '/' ∉ s) : splitSlash s = [s] := by
  induction s with
  | nil => simp [splitSlash]
  | cons c rest ih =>
    have hc : c ≠ '/' := fun hc => h (by simp [hc])
    have hr : '/' ∉ rest := fun hm => h (by simp [hm])
    simp only [splitSlash, ih hr]
    simp [hc]

theorem splitSlash_joinSegs (S : List Str) (hne : S ≠ [])
    (h : ∀ s ∈ S, '/' ∉ s) : splitSlash (joinSegs S) = S := by
  induction S with
  | nil => exact absurd rfl hne
  | cons s S ih =>
    cases S with
    | nil => simp [joinSegs, splitSlash_no_slash s (h s (by simp))]
    | cons t T =>
      have : joinSegs (s :: t :: T) = s ++ '/' :: joinSegs (t :: T) := rfl
      rw [this, splitSlash_append, splitSlash_no_slash s (h s (by simp))]
      rw [ih (by simp) (fun u hu => h u (by simp [hu]))]
      rfl

/-! ### Structure of `cleanSegs` and `goCleanAbs` -/

/-- A path element that survives cleaning: non-empty, separator-free, and
neither `.` nor `..`. -/
def GoodSeg (s : Str) : Prop :=
  s ≠ [] ∧ s ≠ ['.'] ∧ s ≠ ['.', '.'] ∧ '/' ∉ s

theorem cleanSegs_append (acc : List Str) (xs ys : List Str) :
    cleanSegs acc (xs ++ ys) = cleanSegs (cleanSegs acc xs).reverse ys := by
  induction xs generalizing acc with
  | nil => simp [cleanSegs]
  | cons s xs ih =>
    by_cases h0 : s = []
    · simp [cleanSegs, h0, ih]
    · by_cases h1 : s = ['.']
      · simp [cleanSegs, h0, h1, ih]
      · by_cases h2 : s = ['.', '.']
        · simp [cleanSegs, h0, h1, h2, ih]
        · simp [cleanSegs, h0, h1, h2, ih]

theorem cleanSegs_no_dotdot (acc : List Str) (l : List Str)
    (h : ∀ s ∈ l, s ≠ ['.', '.']) :
    cleanSegs acc l
      = acc.reverse ++ l.filter (fun s => decide (s ≠ [] ∧ s ≠ ['.'])) := by
  induction l generalizing acc with
  | nil => simp [cleanSegs]
  | cons s l ih =>
    by_cases h0 : s = []
    · simp [cleanSegs, h0, List.filter, ih _ (fun u hu => h u (by simp [hu]))]
    · by_cases h1 : s = ['.']
      · simp [cleanSegs, h0, h1, List.filter, ih _ (fun u hu => h u (by simp [hu]))]
      · have h2 : s ≠ ['.', '.'] := h s (by simp)
        rw [show cleanSegs acc (s :: l) = cleanSegs (s :: acc) l by
          simp [cleanSegs, h0, h1, h2]]
        rw [ih _ (fun u hu => h u (by simp [hu]))]
        simp [List.filter, h0, h1]

theorem cleanSegs_mem (acc : List Str) (l : List Str) :
    ∀ s ∈ cleanSegs acc l,
      s ∈ acc ∨ (s ∈ l ∧ s ≠ [] ∧ s ≠ ['.'] ∧ s ≠ ['.', '.']) := by
  induction l generalizing acc with
  | nil => intro s hs; simp [cleanSegs] at hs; exact Or.inl hs
  | cons t l ih =>
    intro s hs
    by_cases h0 : t = []
    · simp only [cleanSegs, if_pos h0] at hs
      rcases ih acc s hs with h | h
      · exact Or.inl h
      · exact Or.inr ⟨by simp [h.1], h.2⟩
    · by_cases h1 : t = ['.']
      · rw [show cleanSegs acc (t :: l) = cleanSegs acc l by
          simp [cleanSegs, h0, h1]] at hs
        rcases ih acc s hs with h | h
        · exact Or.inl h
        · exact Or.inr ⟨by simp [h.1], h.2⟩
      · by_cases h2 : t = ['.', '.']
        · rw [show cleanSegs acc (t :: l) = cleanSegs acc.tail l by
            simp [cleanSegs, h0, h1, h2]] at hs
          rcases ih acc.tail s hs with h | h
          · exact Or.inl (List.mem_of_mem_tail h)
          · exact Or.inr ⟨by simp [h.1], h.2⟩
        · rw [show cleanSegs acc (t :: l) = cleanSegs (t :: acc) l by
            simp [cleanSegs, h0, h1, h2]] at hs
          rcases ih (t :: acc) s hs with h | h
          · rcases List.mem_cons.mp h with h3 | h3
            · exact Or.inr ⟨by simp [h3], h3 ▸ ⟨h0, h1, h2⟩⟩
            · exact Or.inl h3
          · exact Or.inr ⟨by simp [h.1], h.2⟩

theorem cleanSegs_good (l : List Str) (hl : ∀ s ∈ l, '/' ∉ s) :
    ∀ s ∈ cleanSegs [] l, GoodSeg s := by
  intro s hs
  rcases cleanSegs_mem [] l s hs with h | h
  · simp at h
  · exact ⟨h.2.1, h.2.2.1, h.2.2.2, hl s h.1⟩

theorem cleanSegs_of_good (acc : List Str) (l : List Str)
    (h : ∀ s ∈ l, GoodSeg s) : cleanSegs acc l = acc.reverse ++ l := by
  rw [cleanSegs_no_dotdot acc l (fun s hs => (h s hs).2.2.1)]
  congr 1
  rw [List.filter_eq_self]
  intro s hs
  simp [(h s hs).1, (h s hs).2.1]

theorem joinSegs_append (S F : List Str) (hS : S ≠ []) (hF : F ≠ []) :
    joinSegs (S ++ F) = joinSegs S ++ '/' :: joinSegs F := by
  induction S with
  | nil => exact absurd rfl hS
  | cons s S ih =>
    cases S with
    | nil =>
      cases F with
      | nil => exact absurd rfl hF
      | cons f F => simp [joinSegs]
    | cons t T =>
      have h1 : joinSegs (s :: (t :: (T ++ F))) = s ++ '/' :: joinSegs (t :: (T ++ F)) := rfl
      have h2 : joinSegs (s :: t :: T) = s ++ '/' :: joinSegs (t :: T) := rfl
      have h3 : (s :: t :: T) ++ F = s :: (t :: (T ++ F)) := by simp
      have h4 : (t :: (T ++ F) : List Str) = (t :: T) ++ F := by simp
      rw [h3, h1, h4, ih (by simp), h2]
      simp

/-- The elements of a cleaned absolute path. -/
def rootSegs (p : Str) : List Str := cleanSegs [] (splitSlash p)

theorem goCleanAbs_eq_rootSegs (p : Str) : goCleanAbs p = '/' :: joinSegs (rootSegs p) := rfl

theorem rootSegs_good (p : Str) : ∀ s ∈ rootSegs p, GoodSeg s :=
  cleanSegs_good (splitSlash p) (mem_splitSlash_no_slash p)

theorem splitSlash_goCleanAbs (p : Str) :
    splitSlash (goCleanAbs p) = [] :: (if rootSegs p = [] then [[]] else rootSegs p) := by
  rw [goCleanAbs_eq_rootSegs]
  cases hS : rootSegs p with
  | nil => simp [splitSlash, joinSegs]
  | cons s S =>
    have hgood : ∀ u ∈ rootSegs p, GoodSeg u := rootSegs_good p
    have hjoin : splitSlash (joinSegs (s :: S)) = s :: S := by
      apply splitSlash_joinSegs _ (by simp)
      intro u hu
      exact (hgood u (hS ▸ hu)).2.2.2
    have : ('/' :: joinSegs (s :: S) : Str) = [] ++ '/' :: joinSegs (s :: S) := by simp
    rw [this, splitSlash_append, hjoin]
    simp [splitSlash]

theorem rootSegs_goCleanAbs (p : Str) : rootSegs (goCleanAbs p) = rootSegs p := by
  rw [rootSegs, splitSlash_goCleanAbs]
  cases hS : rootSegs p with
  | nil => simp [cleanSegs]
  | cons s S =>
    have hgood : ∀ u ∈ s :: S, GoodSeg u := fun u hu => rootSegs_good p u (hS ▸ hu)
    simp only [if_neg (by simp : (s :: S : List Str) ≠ [])]
    rw [show ([] :: s :: S : List Str) = [[]] ++ s :: S by rfl]
    rw [cleanSegs_append]
    have h0 : (cleanSegs ([] : List Str) [[]]).reverse = [] := by simp [cleanSegs]
    rw [h0, cleanSegs_of_good [] _ hgood]
    simp

theorem goCleanAbs_idem (p : Str) : goCleanAbs (goCleanAbs p) = goCleanAbs p := by
  rw [goCleanAbs_eq_rootSegs, rootSegs_goCleanAbs, goCleanAbs_eq_rootSegs]

/-! ### Joining a traversal-free path onto a cleaned root stays inside it -/

theorem no_dotdot_seg (p : Str) (hp : ¬ ['.', '.'] <:+: p) :
    ∀ s ∈ splitSlash p, s ≠ ['.', '.'] := by
  intro s hs he
  exact hp (he ▸ mem_splitSlash_infixOf p s hs)

/-- Elements of a separator-split path that survive cleaning when no `..`
is present. -/
def keptSegs (p : Str) : List Str :=
  (splitSlash p).filter (fun s => decide (s ≠ [] ∧ s ≠ ['.']))

theorem rootSegs_join (r0 p : Str) (hp : ¬ ['.', '.'] <:+: p) :
    rootSegs (goCleanAbs r0 ++ '/' :: p) = rootSegs r0 ++ keptSegs p := by
  rw [rootSegs, splitSlash_append, cleanSegs_append]
  have h1 : cleanSegs [] (splitSlash (goCleanAbs r0)) = rootSegs r0 :=
    rootSegs_goCleanAbs r0
  rw [h1, cleanSegs_no_dotdot _ _ (no_dotdot_seg p hp), List.reverse_reverse]
  rfl

theorem joinSegs_ne_nil (S : List Str) (hS : S ≠ []) (h : ∀ s ∈ S, s ≠ []) :
    joinSegs S ≠ [] := by
  cases S with
  | nil => exact absurd rfl hS
  | cons s S =>
    cases S with
    | nil => exact h s (by simp)
    | cons t T =>
      have : joinSegs (s :: t :: T) = s ++ '/' :: joinSegs (t :: T) := rfl
      rw [this]
      cases hs : s with
      | nil => exact absurd hs (h s (by simp))
      | cons c cs => simp

/-- Boundary-aware containment of a path below a root, as the specification
prescribes it: the candidate equals the root, or extends it right after a
separator (the root `/` already ends in its separator). -/
def BoundaryContained (cand root : Str) : Prop :=
  cand = root ∨ ((if root = ['/'] then [] else root) ++ ['/']) <+: cand

instance (cand root : Str) : Decidable (BoundaryContained cand root) := by
  unfold BoundaryContained; infer_instance

theorem clean_join_prefix_of (r0 p : Str) (hp : ¬ ['.', '.'] <:+: p) :
    goCleanAbs r0 <+: goCleanAbs (goCleanAbs r0 ++ '/' :: p) := by
  rw [goCleanAbs_eq_rootSegs (goCleanAbs r0 ++ '/' :: p), rootSegs_join r0 p hp]
  rw [goCleanAbs_eq_rootSegs r0]
  apply List.cons_prefix_cons.mpr
  refine ⟨rfl, ?_⟩
  cases hS : rootSegs r0 with
  | nil => exact List.nil_prefix
  | cons s S =>
    cases hF : keptSegs p with
    | nil => simp
    | cons f F =>
      rw [joinSegs_append _ _ (by simp) (by simp)]
      exact ⟨'/' :: joinSegs (f :: F), rfl⟩

theorem clean_join_boundary (r0 p : Str) (hp : ¬ ['.', '.'] <:+: p) :
    BoundaryContained (goCleanAbs (goCleanAbs r0 ++ '/' :: p)) (goCleanAbs r0) := by
  rw [goCleanAbs_eq_rootSegs (goCleanAbs r0 ++ '/' :: p), rootSegs_join r0 p hp]
  rw [goCleanAbs_eq_rootSegs r0]
  cases hF : keptSegs p with
  | nil => exact Or.inl (by simp)
  | cons f F =>
    cases hS : rootSegs r0 with
    | nil =>
      refine Or.inr ?_
      rw [if_pos (by simp [joinSegs])]
      exact List.cons_prefix_cons.mpr ⟨rfl, List.nil_prefix⟩
    | cons s S =>
      refine Or.inr ?_
      have hne : joinSegs (s :: S) ≠ [] := by
        apply joinSegs_ne_nil _ (by simp)
        intro u hu
        exact (rootSegs_good r0 u (hS ▸ hu)).1
      rw [if_neg (by simp [hne])]
      rw [joinSegs_append _ _ (by simp) (by simp)]
      refine List.cons_prefix_cons.mpr ⟨rfl, ?_⟩
      refine ⟨joinSegs (f :: F), by simp⟩

/-! ### Helper facts about the handler's branches -/

theorem dotdot_infix_trim (p : Str) (h : ['.', '.'] <:+: p) :
    ['.', '.'] <:+: trimPrefixSlash p := by
  cases p with
  | nil => simp at h
  | cons c rest =>
    by_cases hc : c = '/'
    · subst hc
      rw [show trimPrefixSlash ('/' :: rest) = rest by simp [trimPrefixSlash]]
      rcases h with ⟨pre, suf, hps⟩
      cases pre with
      | nil =>
        simp only [List.nil_append, List.cons_append] at hps
        injection hps with h1 h2
        exact absurd h1 (by decide)
      | cons d pre =>
        simp only [List.cons_append] at hps
        injection hps with h1 h2
        exact ⟨pre, suf, h2⟩
    · rwa [show trimPrefixSlash (c :: rest) = c :: rest by simp [trimPrefixSlash, hc]]

theorem serveDirectory_ne_forbidden (dirPath urlPath : Str) (fsys : Fs) (msg : String) :
    serveDirectory dirPath urlPath fsys ≠ .forbidden msg := by
  unfold serveDirectory
  split <;> simp

theorem serveFile_ne_forbidden (filePath : Str) (fsys : Fs) (msg : String) :
    serveFile filePath fsys ≠ .forbidden msg := by
  unfold serveFile
  split
  · simp
  · split <;> simp

theorem forbiddenMsgs_ne : forbiddenTraversalMsg ≠ forbiddenOutsideMsg := by decide

/-- After a request passes the early traversal check, the containment check
of `main.go` line 97 holds. -/
theorem containment_check_holds (r0 path : Str)
    (h1 : ¬ ['.', '.'] <:+: path) :
    goAbs (goCleanAbs r0) <+: goAbs (goJoin (goCleanAbs r0) path) := by
  show goCleanAbs (goCleanAbs r0) <+: goCleanAbs (goCleanAbs (goCleanAbs r0 ++ '/' :: path))
  rw [goCleanAbs_idem, goCleanAbs_idem]
  exact clean_join_prefix_of r0 path h1

/-- The `Path outside serve directory` branch is never taken when the serve
root is a cleaned absolute path. -/
theorem serveHTTP_never_outside (r0 urlPath : Str) (fsys : Fs) :
    ServeHTTPcore (goCleanAbs r0) urlPath fsys ≠ .forbidden forbiddenOutsideMsg := by
  unfold ServeHTTPcore
  by_cases h : ['.', '.'] <:+: trimPrefixSlash urlPath ∨ ['/'] <+: trimPrefixSlash urlPath
  · rw [if_pos h]
    intro hcontra
    injection hcontra with h1
    exact forbiddenMsgs_ne h1
  · rw [if_neg h]
    have h1 : ¬ ['.', '.'] <:+: trimPrefixSlash urlPath := fun hc => h (Or.inl hc)
    have hpre := containment_check_holds r0 (trimPrefixSlash urlPath) h1
    rw [if_neg (by simpa using hpre)]
    cases fsys.stat (goAbs (goJoin (goCleanAbs r0) (trimPrefixSlash urlPath))) with
    | errNotExist => simp
    | errOther => simp
    | ok isDir =>
      by_cases hd : isDir = true
      · simp only [hd, if_true]
        exact serveDirectory_ne_forbidden _ _ _ _
      · simp only [Bool.not_eq_true] at hd
        simp only [hd]
        simp only [Bool.false_eq_true, if_false]
        exact serveFile_ne_forbidden _ _ _

/-- The canonical candidate path of a request: the URL path with one leading
separator stripped, joined onto the serve root and canonicalized
(`main.go` lines 77, 86, 89). -/
def canonicalCandidate (root urlPath : Str) : Str :=
  goAbs (goJoin root (trimPrefixSlash urlPath))

/-! ### Claim theorems -/

/-- C1: for every request whose canonical candidate path is not
boundary-contained in the canonical serve root, the response is 403
Forbidden, for every filesystem state.  (The only way the candidate can
escape the root is a `..` element, and any such request is already rejected
by the early traversal check; the witness instantiates the adversarial
`/srv/files` vs `/srv/files-secret/x` case.) -/
theorem escape_implies_forbidden (r0 urlPath : Str) (fsys : Fs)
    (h : ¬ BoundaryContained (canonicalCandidate (goCleanAbs r0) urlPath) (goCleanAbs r0)) :
    ∃ msg, ServeHTTPcore (goCleanAbs r0) urlPath fsys = .forbidden msg := by
  by_cases he : ['.', '.'] <:+: trimPrefixSlash urlPath ∨ ['/'] <+: trimPrefixSlash urlPath
  · refine ⟨forbiddenTraversalMsg, ?_⟩
    unfold ServeHTTPcore
    rw [if_pos he]
  · exfalso
    apply h
    have h1 : ¬ ['.', '.'] <:+: trimPrefixSlash urlPath := fun hc => he (Or.inl hc)
    show BoundaryContained (goCleanAbs (goCleanAbs (goCleanAbs r0 ++ '/' :: trimPrefixSlash urlPath))) (goCleanAbs r0)
    rw [goCleanAbs_idem]
    exact clean_join_boundary r0 (trimPrefixSlash urlPath) h1

/-- Witness for C1, at the adversarial case of the claim: serve root
`/srv/files`, request resolving to `/srv/files-secret/x`.  The candidate is
not boundary-contained and the response is 403. -/
theorem escape_implies_forbidden_witness :
    canonicalCandidate (goCleanAbs ("/srv/files").data) ("/../files-secret/x").data
        = ("/srv/files-secret/x").data
    ∧ ¬ BoundaryContained (("/srv/files-secret/x").data) (("/srv/files").data)
    ∧ (∃ msg, ServeHTTPcore (goCleanAbs ("/srv/files").data) ("/../files-secret/x").data fsEmpty
        = .forbidden msg) :=
  ⟨by decide, by decide,
    escape_implies_forbidden ("/srv/files").data ("/../files-secret/x").data fsEmpty (by decide)⟩

/-- C3: every request path containing the literal `..` anywhere, or still
beginning with a separator after one leading separator is stripped, is
answered 403 Forbidden with the traversal message, whatever the filesystem
holds (the quantification over `fsys` shows no filesystem access happens). -/
theorem traversal_request_forbidden (servePath urlPath : Str) (fsys : Fs)
    (h : ['.', '.'] <:+: urlPath ∨ ['/'] <+: trimPrefixSlash urlPath) :
    ServeHTTPcore servePath urlPath fsys = .forbidden forbiddenTraversalMsg := by
  have h' : ['.', '.'] <:+: trimPrefixSlash urlPath ∨ ['/'] <+: trimPrefixSlash urlPath := by
    rcases h with h | h
    · exact Or.inl (dotdot_infix_trim urlPath h)
    · exact Or.inr h
  unfold ServeHTTPcore
  rw [if_pos h']

/-- Witness for C3 at the concrete request `/a/../b` against a root and a
filesystem that would otherwise serve it. -/
theorem traversal_request_forbidden_witness :
    ServeHTTPcore ("/srv").data ("/a/../b").data fsEmpty = .forbidden forbiddenTraversalMsg :=
  traversal_request_forbidden ("/srv").data ("/a/../b").data fsEmpty (by decide)

/-- C10: for every request path that passes the early traversal check, the
containment check on the joined-and-absolutized candidate (`main.go` line
97) succeeds, and the `Path outside serve directory` 403 branch is
unreachable. -/
theorem outside_branch_unreachable (r0 urlPath : Str) (fsys : Fs)
    (h1 : ¬ ['.', '.'] <:+: trimPrefixSlash urlPath)
    (_h2 : ¬ ['/'] <+: trimPrefixSlash urlPath) :
    goAbs (goCleanAbs r0) <+: goAbs (goJoin (goCleanAbs r0) (trimPrefixSlash urlPath))
    ∧ ServeHTTPcore (goCleanAbs r0) urlPath fsys ≠ .forbidden forbiddenOutsideMsg :=
  ⟨containment_check_holds r0 (trimPrefixSlash urlPath) h1,
    serveHTTP_never_outside r0 urlPath fsys⟩

/-- Witness for C10 at a concrete traversal-free request. -/
theorem outside_branch_unreachable_witness :
    goAbs (goCleanAbs ("/srv").data) <+: goAbs (goJoin (goCleanAbs ("/srv").data) (trimPrefixSlash ("/a/b").data))
    ∧ ServeHTTPcore (goCleanAbs ("/srv").data) ("/a/b").data fsEmpty ≠ .forbidden forbiddenOutsideMsg :=
  outside_branch_unreachable ("/srv").data ("/a/b").data fsEmpty (by decide) (by decide)

/-- A filesystem on which `os.Stat` fails with an error other than
non-existence (e.g. a permission error) for every path. -/
def fsStatError : Fs :=
  { stat := fun _ => .errOther, readDir := fun _ => none, openFile := fun _ => none }

/-- C2 (code bug): when `os.Stat` fails with an error other than
non-existence, `main.go` line 104 only tests `os.IsNotExist(err)`, so
control falls through to line 109 with `info = nil` and `info.IsDir()`
dereferences a nil interface: the handler panics instead of returning 500
Internal Server Error; the non-existence case does yield 404. -/
theorem stat_error_panics :
    ServeHTTPcore ("/srv").data ("/data").data fsStatError = .panicked
    ∧ ServeHTTPcore ("/srv").data ("/data").data fsStatError ≠ .internalError
    ∧ ServeHTTPcore ("/srv").data ("/data").data fsEmpty = .notFound := by
  refine ⟨by decide, by decide, by decide⟩

/-- The MIME table exactly as the claim lists it, keyed by the (lowered)
extension. -/
def specMimeOfExt (ext : Str) : String :=
  if ext = ".html".data ∨ ext = ".htm".data then "text/html"
  else if ext = ".css".data then "text/css"
  else if ext = ".js".data then "application/javascript"
  else if ext = ".json".data then "application/json"
  else if ext = ".png".data then "image/png"
  else if ext = ".jpg".data ∨ ext = ".jpeg".data then "image/jpeg"
  else if ext = ".gif".data then "image/gif"
  else if ext = ".svg".data then "image/svg+xml"
  else if ext = ".pdf".data then "application/pdf"
  else if ext = ".txt".data then "text/plain"
  else if ext = ".md".data then "text/markdown"
  else "application/octet-stream"

/-- C5: the MIME type is a function of the file name's lower-cased
extension alone and agrees with the claim's table on every input (unknown
and missing extensions included, via the final `octet-stream` case). -/
theorem mime_by_extension :
    (∀ name : Str, getMimeType name = specMimeOfExt (lowerStr (goExt name)))
    ∧ (∀ a b : Str, lowerStr (goExt a) = lowerStr (goExt b) →
        getMimeType a = getMimeType b) := by
  have hfun : ∀ name : Str, getMimeType name = specMimeOfExt (lowerStr (goExt name)) :=
    fun _ => rfl
  refine ⟨hfun, fun a b h => ?_⟩
  rw [hfun a, hfun b, h]

/-- Witness for C5: a case-folded known extension, two names with the same
extension up to case, and the Unicode fold `İ` to `i` making `.GİF` a case
variant of `.gif`. -/
theorem mime_by_extension_witness :
    getMimeType ("logo.PNG").data = specMimeOfExt (lowerStr (goExt ("logo.PNG").data))
    ∧ getMimeType ("logo.PNG").data = getMimeType ("x.png").data
    ∧ getMimeType ("logo.PNG").data = "image/png"
    ∧ getMimeType ("x.GİF").data = "image/gif"
    ∧ getMimeType ("README").data = "application/octet-stream" :=
  ⟨mime_by_extension.1 ("logo.PNG").data,
    mime_by_extension.2 ("logo.PNG").data ("x.png").data (by decide),
    by decide, by decide, by decide⟩

/-- Size string exactly as the C7 claim states it: whole bytes up to 1023,
then the exact count of kibibytes (resp. mebibytes) rounded to one decimal
place. -/
def specSizeString (n : Nat) : Str :=
  if n ≤ 1023 then natToStr n ++ (" B").data
  else if n ≤ 1048575 then fixed1Exact n 1024 ++ (" KB").data
  else fixed1Exact n 1048576 ++ (" MB").data

/-- Size string as amended: the same three ranges, with the one-decimal
count computed after the byte count is converted to float64 (rounded to 53
significant bits, ties to even), as the program's
`float64(bytes)/(1024*1024)` does. -/
def specSizeStringF (n : Nat) : Str :=
  if n ≤ 1023 then natToStr n ++ (" B").data
  else if n ≤ 1048575 then fixed1 n 1024 ++ (" KB").data
  else fixed1 n 1048576 ++ (" MB").data

/-- C7 counterexample: at `n = 2^62 + 52429` the `float64` conversion
rounds the byte count down by 205, the quotient lands at 4398046511104.0498…,
and the program prints `4398046511104.0 MB`, while the exact mebibyte count
rounded to one decimal (the claim as stated) is `4398046511104.1 MB`. -/
theorem size_float_counterexample :
    goFormatBytes (2 ^ 62 + 52429) = ("4398046511104.0 MB").data
    ∧ specSizeString (2 ^ 62 + 52429) = ("4398046511104.1 MB").data
    ∧ goFormatBytes (2 ^ 62 + 52429) ≠ specSizeString (2 ^ 62 + 52429) :=
  ⟨by decide, by decide, by decide⟩

theorem fixed1_eq_exact_of_small (num den : Nat) (h : num < 2 ^ 53) :
    fixed1 num den = fixed1Exact num den := by
  unfold fixed1 fixed1Exact toFloat64
  rw [if_pos h]

/-- C7 amended: `formatBytes` matches the claim's three ranges on every
non-negative byte count with the one-decimal value computed in float64
precision; below 2^53 — where the conversion is exact — the printed string
is exactly the claim's one-decimal count of kibibytes resp. mebibytes.
Directory rows render the placeholder instead of a size. -/
theorem size_formatting :
    (∀ n : Nat, goFormatBytes n = specSizeStringF n)
    ∧ (∀ n : Nat, n < 2 ^ 53 → goFormatBytes n = specSizeString n)
    ∧ (∀ f : FileInfo, f.IsDir = true → sizeCell f = ("-").data) := by
  refine ⟨?_, ?_, ?_⟩
  · intro n
    unfold goFormatBytes specSizeStringF
    by_cases h1 : n < 1024
    · rw [if_pos h1, if_pos (show n ≤ 1023 by omega)]
    · rw [if_neg h1, if_neg (show ¬ n ≤ 1023 by omega)]
      by_cases h2 : n < 1024 * 1024
      · rw [if_pos h2, if_pos (show n ≤ 1048575 by omega)]
      · rw [if_neg h2, if_neg (show ¬ n ≤ 1048575 by omega)]
  · intro n hn
    unfold goFormatBytes specSizeString
    by_cases h1 : n < 1024
    · rw [if_pos h1, if_pos (show n ≤ 1023 by omega)]
    · rw [if_neg h1, if_neg (show ¬ n ≤ 1023 by omega)]
      by_cases h2 : n < 1024 * 1024
      · rw [if_pos h2, if_pos (show n ≤ 1048575 by omega), fixed1_eq_exact_of_small n 1024 hn]
      · rw [if_neg h2, if_neg (show ¬ n ≤ 1048575 by omega),
          fixed1_eq_exact_of_small n (1024 * 1024) hn]
  · intro f h
    simp [sizeCell, h]

/-- Witness for C7: concrete values in each range (all below 2^53, where
the amended and original readings agree) and a directory row. -/
theorem size_formatting_witness :
    goFormatBytes 1536 = specSizeStringF 1536
    ∧ goFormatBytes 1536 = specSizeString 1536
    ∧ goFormatBytes 1536 = ("1.5 KB").data
    ∧ goFormatBytes 123 = ("123 B").data
    ∧ goFormatBytes 1048576 = ("1.0 MB").data
    ∧ sizeCell { Name := [], IsDir := true, Size := 5, ModTime := [], URL := [] } = ("-").data :=
  ⟨size_formatting.1 1536, size_formatting.2.1 1536 (by decide), by decide, by decide, by decide,
    size_formatting.2.2 { Name := [], IsDir := true, Size := 5, ModTime := [], URL := [] } rfl⟩

/-- C9: the response is a function of the request's URL path and the
filesystem state alone (method and headers are never read), and the
handler's state after a request equals its state before, so repeated
identical requests against an unchanged filesystem produce identical
responses. -/
theorem handler_deterministic (srv : FileServer) (r1 r2 : Request) (fs1 fs2 : Fs)
    (hpath : r1.urlPath = r2.urlPath)
    (hstat : ∀ p, fs1.stat p = fs2.stat p)
    (hrd : ∀ p, fs1.readDir p = fs2.readDir p)
    (hop : ∀ p, fs1.openFile p = fs2.openFile p) :
    (ServeHTTPrun srv r1 fs1).1 = (ServeHTTPrun srv r2 fs2).1
    ∧ (ServeHTTPrun srv r1 fs1).2 = srv := by
  have hfs : fs1 = fs2 := by
    cases fs1
    cases fs2
    simp only [Fs.mk.injEq]
    exact ⟨funext hstat, funext hrd, funext hop⟩
  refine ⟨?_, rfl⟩
  show ServeHTTPcore srv.servePath r1.urlPath fs1 = ServeHTTPcore srv.servePath r2.urlPath fs2
  rw [hpath, hfs]

/-- Witness for C9: two requests differing in method and headers but not in
path get the same response, and the server state is unchanged. -/
theorem handler_deterministic_witness :
    (ServeHTTPrun { servePath := ("/srv").data }
        { method := "GET", urlPath := ("/x").data, headers := [("Accept", "text/html")] } fsEmpty).1
      = (ServeHTTPrun { servePath := ("/srv").data }
        { method := "POST", urlPath := ("/x").data, headers := [] } fsEmpty).1
    ∧ (ServeHTTPrun { servePath := ("/srv").data }
        { method := "GET", urlPath := ("/x").data, headers := [("Accept", "text/html")] } fsEmpty).2
      = { servePath := ("/srv").data } :=
  handler_deterministic { servePath := ("/srv").data } _ _ fsEmpty fsEmpty rfl
    (fun _ => rfl) (fun _ => rfl) (fun _ => rfl)

/-- The child URL as the claim states it: root-relative (leading `/`), the
listing's path joined with `/` and the child name when the path is
non-empty, just the child name for the root listing, trailing `/` exactly
for directories. -/
def specChildURL (urlPath name : Str) (isDir : Bool) : Str :=
  '/' :: ((if urlPath = [] then name else urlPath ++ '/' :: name)
    ++ (if isDir then ['/'] else []))

theorem getLast_append_no_slash (pre name : Str) (hn : name ≠ []) (hs : '/' ∉ name) :
    (pre ++ name).getLast? ≠ some '/' := by
  obtain ⟨L, b, hb⟩ : ∃ L b, name = L ++ [b] :=
    ⟨name.dropLast, name.getLast hn, (List.dropLast_append_getLast hn).symm⟩
  have hbmem : b ∈ name := by simp [hb]
  have hbne : b ≠ '/' := fun h => hs (h ▸ hbmem)
  rw [hb, ← List.append_assoc, List.getLast?_concat]
  simp [hbne]

/-- C8: the URL computed for every child entry equals the claim's
root-relative form, starts with `/`, and ends with `/` exactly when the
child is a directory (child names from `os.ReadDir` are non-empty and
separator-free). -/
theorem child_url_correct (urlPath name : Str) (isDir : Bool)
    (hn : name ≠ []) (hs : '/' ∉ name) :
    buildURL urlPath name isDir = specChildURL urlPath name isDir
    ∧ (buildURL urlPath name isDir).head? = some '/'
    ∧ ((buildURL urlPath name isDir).getLast? = some '/' ↔ isDir = true) := by
  refine ⟨?_, ?_, ?_⟩
  · unfold buildURL specChildURL
    by_cases h : urlPath = [] <;> simp [h]
  · unfold buildURL
    by_cases h : urlPath = [] <;> by_cases hd : isDir <;> simp [h, hd]
  · unfold buildURL
    constructor
    · intro h
      by_cases hd : isDir = true
      · exact hd
      · exfalso
        simp only [Bool.not_eq_true] at hd
        simp only [hd, Bool.false_eq_true, if_false, List.append_nil] at h
        by_cases hu : urlPath = []
        · simp only [hu, ne_eq, not_true_eq_false, if_false] at h
          exact getLast_append_no_slash ['/'] name hn hs h
        · simp only [ne_eq, hu, not_false_eq_true, if_true] at h
          refine getLast_append_no_slash ('/' :: (urlPath ++ ['/'])) name hn hs ?_
          have heq : ('/' :: (urlPath ++ ['/'])) ++ name = '/' :: (urlPath ++ '/' :: name) := by
            simp
          rw [heq]
          exact h
    · intro hd
      simp only [hd, if_true]
      exact List.getLast?_concat _

/-- Witness for C8 at a nested directory child and a root-listing file. -/
theorem child_url_correct_witness :
    buildURL ("docs").data ("img").data true = specChildURL ("docs").data ("img").data true
    ∧ buildURL ("docs").data ("img").data true = ("/docs/img/").data
    ∧ (buildURL [] ("a.txt").data false).getLast? ≠ some '/' :=
  ⟨(child_url_correct ("docs").data ("img").data true (by decide) (by decide)).1,
    by decide,
    fun h => by
      have := ((child_url_correct [] ("a.txt").data false (by decide) (by decide)).2.2).mp h
      exact absurd this (by decide)⟩

/-- Parent link as the amended C4 claim states it: the listed path with its
last element removed, followed by a trailing separator, or the root link
`/` when the path has a single element. -/
def specParentLink (path : Str) : Str :=
  if (splitSlash path).length = 1 then ['/']
  else joinSegs (splitSlash path).dropLast ++ ['/']

/-- C4 counterexample: the claim says the parent row of a non-root listing
links to the listed path with its last segment removed; for the listed path
`a/b` the rendered `href` is `a/` — the dirname plus a trailing separator —
not `a`. -/
theorem parent_link_counterexample :
    parentHref ("a/b").data = ("a/").data
    ∧ parentHref ("a/b").data ≠ ("a").data
    ∧ generateDirectoryHTML { Path := ("a/b").data, Files := [] }
        = htmlHeader ("a/b").data ++ parentRowHTML ("a/b").data ++ htmlBetween
            ++ entriesHTML [] ++ htmlFooter := by
  refine ⟨by decide, by decide, ?_⟩
  rw [show generateDirectoryHTML { Path := ("a/b").data, Files := [] }
      = htmlHeader ("a/b").data ++ (if ("a/b").data ≠ [] then parentRowHTML ("a/b").data else [])
        ++ htmlBetween ++ entriesHTML [] ++ htmlFooter from rfl]
  rw [if_pos (by decide)]

/-- C4 amended: the root listing renders no parent-directory row; every
non-root listing renders exactly one, placed before the entry rows, whose
link is the listed path with its last segment removed followed by a
trailing `/` (or the root link `/` when only one segment remains). -/
theorem parent_row_correct (l : DirectoryListing) :
    (l.Path = [] → generateDirectoryHTML l
        = htmlHeader l.Path ++ htmlBetween ++ entriesHTML l.Files ++ htmlFooter)
    ∧ (l.Path ≠ [] → generateDirectoryHTML l
        = htmlHeader l.Path ++ parentRowHTML l.Path ++ htmlBetween
            ++ entriesHTML l.Files ++ htmlFooter
        ∧ parentHref l.Path = specParentLink l.Path) := by
  constructor
  · intro h
    unfold generateDirectoryHTML
    rw [if_neg (by simp [h])]
    simp
  · intro h
    refine ⟨?_, ?_⟩
    · unfold generateDirectoryHTML
      rw [if_pos h]
    · unfold parentHref specParentLink goDirname
      by_cases h1 : (splitSlash l.Path).length = 1
      · rw [if_pos h1, if_pos h1]
      · have hne := splitSlash_ne_nil l.Path
        have hlen : ¬ (splitSlash l.Path).length ≤ 1 := by
          have : (splitSlash l.Path).length ≠ 0 := by
            simpa using hne
          omega
        rw [if_neg h1, if_neg h1, if_neg hlen, List.dropLast_eq_take]

/-- Witness for C4 amended: the root listing and a two-segment listing. -/
theorem parent_row_correct_witness :
    generateDirectoryHTML { Path := [], Files := [] }
        = htmlHeader [] ++ htmlBetween ++ entriesHTML [] ++ htmlFooter
    ∧ parentHref ("docs/img").data = specParentLink ("docs/img").data
    ∧ specParentLink ("docs/img").data = ("docs/").data :=
  ⟨(parent_row_correct { Path := [], Files := [] }).1 rfl,
    ((parent_row_correct { Path := ("docs/img").data, Files := [] }).2 (by decide)).2,
    by decide⟩

/-! ### The order underlying `sort.Slice`'s comparison -/

theorem strLt_irrefl (a : Str) : strLt a a = false := by
  induction a with
  | nil => rfl
  | cons c a ih => simp [strLt, ih]

theorem strLt_trichotomy (a : Str) : ∀ b, strLt a b = true ∨ a = b ∨ strLt b a = true := by
  induction a with
  | nil =>
    intro b
    cases b with
    | nil => exact Or.inr (Or.inl rfl)
    | cons d bs => exact Or.inl rfl
  | cons c as ih =>
    intro b
    cases b with
    | nil => exact Or.inr (Or.inr rfl)
    | cons d bs =>
      by_cases h1 : c.toNat < d.toNat
      · exact Or.inl (by simp [strLt, h1])
      · by_cases h2 : d.toNat < c.toNat
        · exact Or.inr (Or.inr (by simp [strLt, h2]))
        · have hval : c = d := by
            have h3 : c.toNat = d.toNat := by omega
            unfold Char.toNat at h3
            exact Char.eq_of_val_eq (UInt32.toNat.inj h3)
          subst hval
          rcases ih bs with h | h | h
          · exact Or.inl (by simp [strLt, h])
          · exact Or.inr (Or.inl (by rw [h]))
          · exact Or.inr (Or.inr (by simp [strLt, h]))

theorem strLt_trans (a : Str) : ∀ b c, strLt a b = true → strLt b c = true →
    strLt a c = true := by
  induction a with
  | nil =>
    intro b c h1 h2
    cases c with
    | nil =>
      cases b with
      | nil => simp [strLt] at h1
      | cons d bs => simp [strLt] at h2
    | cons e cs => rfl
  | cons ca as ih =>
    intro b c h1 h2
    cases b with
    | nil => simp [strLt] at h1
    | cons cb bs =>
      cases c with
      | nil => simp [strLt] at h2
      | cons cc cs =>
        simp only [strLt] at h1 h2 ⊢
        by_cases hab : ca.toNat < cb.toNat <;> by_cases hbc : cb.toNat < cc.toNat
        · simp [show ca.toNat < cc.toNat by omega]
        · by_cases hcb : cc.toNat < cb.toNat
          · simp [hbc, hcb] at h2
          · simp [show ca.toNat < cc.toNat by omega]
        · simp only [if_neg hab] at h1
          by_cases hba : cb.toNat < ca.toNat
          · simp [hba] at h1
          · simp [show ca.toNat < cc.toNat by omega]
        · simp only [if_neg hab] at h1
          by_cases hba : cb.toNat < ca.toNat
          · simp [hba] at h1
          · simp only [if_neg hba] at h1
            by_cases hcb : cc.toNat < cb.toNat
            · simp [hbc, hcb] at h2
            · simp only [if_neg hbc, if_neg hcb] at h2
              rw [if_neg (show ¬ ca.toNat < cc.toNat by omega),
                if_neg (show ¬ cc.toNat < ca.toNat by omega)]
              exact ih bs cs h1 h2

theorem strLt_asymm (a b : Str) (h : strLt a b = true) : strLt b a = false := by
  cases hx : strLt b a
  · rfl
  · have h2 := strLt_trans a b a h hx
    rw [strLt_irrefl] at h2
    exact h2.symm

theorem strLt_le_trans (a b c : Str) (h1 : strLt b a = false) (h2 : strLt c b = false) :
    strLt c a = false := by
  cases hx : strLt c a
  · rfl
  · exfalso
    rcases strLt_trichotomy c b with h | h | h
    · rw [h2] at h
      exact Bool.false_ne_true h
    · subst h
      rw [h1] at hx
      exact Bool.false_ne_true hx
    · have h3 := strLt_trans b c a h hx
      rw [h1] at h3
      exact Bool.false_ne_true h3

/-- The non-strict order induced by `goLess`: `a` may come before `b`. -/
def fileLe (a b : FileInfo) : Prop := goLess b a = false

theorem goLess_asymm (a b : FileInfo) (h : goLess a b = true) : goLess b a = false := by
  unfold goLess at h ⊢
  by_cases hd : a.IsDir = b.IsDir
  · rw [if_neg (by simp [hd])] at h
    rw [if_neg (by simp [hd])]
    exact strLt_asymm _ _ h
  · rw [if_pos hd] at h
    rw [if_pos (fun he => hd he.symm)]
    cases ha : a.IsDir with
    | false => rw [ha] at h; exact absurd h (by simp)
    | true =>
      cases hb : b.IsDir with
      | false => rfl
      | true => exact absurd (ha ▸ hb ▸ rfl) hd

theorem goLess_neg_trans (a b c : FileInfo)
    (h1 : goLess b a = false) (h2 : goLess c b = false) : goLess c a = false := by
  unfold goLess at h1 h2 ⊢
  cases ha : a.IsDir <;> cases hb : b.IsDir <;> cases hc : c.IsDir <;>
    rw [ha, hb] at h1 <;> rw [hb, hc] at h2 <;> simp_all
  · exact strLt_le_trans _ _ _ h1 h2
  · exact strLt_le_trans _ _ _ h1 h2

theorem insertFile_perm (a : FileInfo) (l : List FileInfo) :
    List.Perm (insertFile a l) (a :: l) := by
  induction l with
  | nil => exact List.Perm.refl _
  | cons b l ih =>
    unfold insertFile
    by_cases h : goLess b a = true
    · rw [if_pos h]
      exact (List.Perm.cons b ih).trans (List.Perm.swap a b l)
    · rw [if_neg h]

theorem sortFiles_perm (l : List FileInfo) : List.Perm (sortFiles l) l := by
  induction l with
  | nil => exact List.Perm.refl _
  | cons a l ih => exact (insertFile_perm a (sortFiles l)).trans (List.Perm.cons a ih)

theorem mem_insertFile (a x : FileInfo) (l : List FileInfo) (h : x ∈ insertFile a l) :
    x = a ∨ x ∈ l := by
  induction l with
  | nil => simpa [insertFile] using h
  | cons b l ih =>
    unfold insertFile at h
    by_cases hb : goLess b a = true
    · rw [if_pos hb] at h
      rcases List.mem_cons.mp h with h1 | h1
      · exact Or.inr (by simp [h1])
      · rcases ih h1 with h2 | h2
        · exact Or.inl h2
        · exact Or.inr (by simp [h2])
    · rw [if_neg hb] at h
      rcases List.mem_cons.mp h with h1 | h1
      · exact Or.inl h1
      · exact Or.inr h1

theorem insertFile_sorted (a : FileInfo) (l : List FileInfo)
    (hl : l.Pairwise fileLe) : (insertFile a l).Pairwise fileLe := by
  induction l with
  | nil => simp [insertFile, fileLe]
  | cons b l ih =>
    rcases List.pairwise_cons.mp hl with ⟨hb, hl'⟩
    unfold insertFile
    by_cases hba : goLess b a = true
    · rw [if_pos hba]
      refine List.pairwise_cons.mpr ⟨?_, ih hl'⟩
      intro x hx
      rcases mem_insertFile a x l hx with h1 | h1
      · subst h1
        exact goLess_asymm b x hba
      · exact hb x h1
    · rw [if_neg hba]
      have hba' : goLess b a = false := by
        cases hx : goLess b a
        · rfl
        · exact absurd hx hba
      refine List.pairwise_cons.mpr ⟨?_, hl⟩
      intro x hx
      rcases List.mem_cons.mp hx with h1 | h1
      · subst h1
        exact hba'
      · exact goLess_neg_trans a b x hba' (hb x h1)

theorem sortFiles_sorted (l : List FileInfo) : (sortFiles l).Pairwise fileLe := by
  induction l with
  | nil => simp [sortFiles]
  | cons a l ih => exact insertFile_sorted a (sortFiles l) ih

theorem dirEntsToFiles_all_ok (urlPath : Str) (entries : List DirEnt)
    (hok : ∀ e ∈ entries, e.infoErr = false) :
    dirEntsToFiles urlPath entries = entries.map (mkFileInfo urlPath) := by
  induction entries with
  | nil => rfl
  | cons e es ih =>
    unfold dirEntsToFiles
    simp only [List.filterMap_cons, List.map_cons]
    rw [hok e (by simp)]
    simp only [if_neg (by simp : ¬ (false : Bool) = true)]
    rw [show List.filterMap
        (fun e => if e.infoErr then none else some (mkFileInfo urlPath e)) es
      = dirEntsToFiles urlPath es from rfl]
    rw [ih (fun u hu => hok u (by simp [hu]))]

/-- C6: for every directory whose children's metadata is readable, the
rendered listing's entries are exactly the directory's immediate children
(a permutation of them, one `FileInfo` per child), ordered with all
directories before all files and each group ascending by name. -/
theorem listing_sorted_children (dirPath urlPath : Str) (fsys : Fs) (entries : List DirEnt)
    (hrd : fsys.readDir dirPath = some entries)
    (hok : ∀ e ∈ entries, e.infoErr = false) :
    serveDirectory dirPath urlPath fsys
      = .dirOk (generateDirectoryHTML
          { Path := urlPath, Files := sortFiles (dirEntsToFiles urlPath entries) })
    ∧ List.Perm (sortFiles (dirEntsToFiles urlPath entries))
        (entries.map (mkFileInfo urlPath))
    ∧ (sortFiles (dirEntsToFiles urlPath entries)).Pairwise
        (fun a b => (b.IsDir = true → a.IsDir = true)
          ∧ (a.IsDir = b.IsDir → strLt b.Name a.Name = false)) := by
  refine ⟨?_, ?_, ?_⟩
  · unfold serveDirectory
    rw [hrd]
  · rw [dirEntsToFiles_all_ok urlPath entries hok]
    exact sortFiles_perm _
  · refine (sortFiles_sorted _).imp ?_
    intro a b hab
    have hab' : (if b.IsDir ≠ a.IsDir then b.IsDir else strLt b.Name a.Name) = false := hab
    by_cases hd : b.IsDir = a.IsDir
    · rw [if_neg (by simp [hd])] at hab'
      exact ⟨fun hbd => hd ▸ hbd, fun _ => hab'⟩
    · rw [if_pos hd] at hab'
      refine ⟨fun hbd => ?_, fun heq => ?_⟩
      · rw [hbd] at hab'
        exact absurd hab' (by simp)
      · exact absurd (heq ▸ hd) (fun hne => hne rfl)

/-- Children used by the C6 witness: deliberately unsorted, a directory
between two files. -/
def demoEntries : List DirEnt :=
  [ { name := ("zeta").data, isDir := false, size := 10, modTime := [], infoErr := false },
    { name := ("alpha").data, isDir := true, size := 0, modTime := [], infoErr := false },
    { name := ("beta.txt").data, isDir := false, size := 2048, modTime := [], infoErr := false } ]

/-- A filesystem exposing `demoEntries` under `/srv/docs`. -/
def fsDemo : Fs :=
  { stat := fun p => if p = ("/srv/docs").data then .ok true else .errNotExist,
    readDir := fun p => if p = ("/srv/docs").data then some demoEntries else none,
    openFile := fun _ => none }

/-- Witness for C6: the demo listing is a permutation of the three children
and comes out directory-first, alphabetical within groups. -/
theorem listing_sorted_children_witness :
    List.Perm (sortFiles (dirEntsToFiles ("docs").data demoEntries))
        (demoEntries.map (mkFileInfo ("docs").data))
    ∧ (sortFiles (dirEntsToFiles ("docs").data demoEntries)).map FileInfo.Name
        = [("alpha").data, ("beta.txt").data, ("zeta").data] :=
  ⟨(listing_sorted_children ("/srv/docs").data ("docs").data fsDemo demoEntries
      (by rfl) (by decide)).2.1,
    by decide⟩

end SimpleHttpServer
